import Mathlib

/-!
Verification of the production-telemetry engine (rollup, cycle-time/targets,
overcycle publisher, tag-change publisher) against its specification.

Numeric model: Python floats and DB decimals are modelled as rationals (ℚ),
counters and epoch milliseconds as integers (ℤ).  Python `int()` truncation,
`round()` (banker's rounding) and `%d:%02d` formatting are modelled explicitly.
-/

/-- Python `int(q)`: truncation toward zero. -/
def pyInt (q : ℚ) : ℤ := if q < 0 then ⌈q⌉ else ⌊q⌋

/-- Python 3 `round(q)`: round half to even (banker's rounding). -/
def pyRound (q : ℚ) : ℤ :=
  if q - (⌊q⌋ : ℚ) < 1/2 then ⌊q⌋
  else if 1/2 < q - (⌊q⌋ : ℚ) then ⌊q⌋ + 1
  else if ⌊q⌋ % 2 = 0 then ⌊q⌋ else ⌊q⌋ + 1

theorem pyRound_ge_floor (q : ℚ) : ⌊q⌋ ≤ pyRound q := by
  unfold pyRound
  split
  · omega
  split
  · omega
  split <;> omega

theorem pyRound_le_floor_add_one (q : ℚ) : pyRound q ≤ ⌊q⌋ + 1 := by
  unfold pyRound
  split
  · omega
  split
  · omega
  split <;> omega

theorem pyRound_mono {q r : ℚ} (h : q ≤ r) : pyRound q ≤ pyRound r := by
  have hf : ⌊q⌋ ≤ ⌊r⌋ := Int.floor_mono h
  rcases lt_or_eq_of_le hf with hlt | heq
  · calc pyRound q ≤ ⌊q⌋ + 1 := pyRound_le_floor_add_one q
      _ ≤ ⌊r⌋ := by omega
      _ ≤ pyRound r := pyRound_ge_floor r
  · unfold pyRound
    rw [← heq]
    repeat' split
    all_goals first | omega | (exfalso; linarith)

theorem pyRound_zero : pyRound 0 = 0 := by
  norm_num [pyRound]

theorem pyRound_nonneg {q : ℚ} (h : 0 ≤ q) : 0 ≤ pyRound q := by
  have h1 := pyRound_ge_floor q
  have h2 : (0 : ℤ) ≤ ⌊q⌋ := Int.floor_nonneg.mpr h
  omega

/-- Python `round(q, 3)` modelled exactly: banker's rounding at the third
decimal place. -/
def round3 (q : ℚ) : ℚ := (pyRound (q * 1000) : ℚ) / 1000

theorem round3_mono {q r : ℚ} (h : q ≤ r) : round3 q ≤ round3 r := by
  unfold round3
  have h1 : pyRound (q * 1000) ≤ pyRound (r * 1000) := pyRound_mono (by linarith)
  have h2 : ((pyRound (q * 1000) : ℚ)) ≤ ((pyRound (r * 1000) : ℚ)) := by exact_mod_cast h1
  linarith

theorem round3_zero : round3 0 = 0 := by
  unfold round3
  norm_num [pyRound_zero]

theorem round3_nonneg {q : ℚ} (h : 0 ≤ q) : 0 ≤ round3 q := by
  have := round3_mono h
  rwa [round3_zero] at this

/-! ## ProductionRollup._series_positive_delta

Source (`src/ProductionRollup.py`, lines 86-123): seed `peak` with the first
(parsable) sample value, then iterate all samples; whenever `v > peak`,
`total += v - peak; peak = v`; return `int(total)`. -/

def positive_delta_loop : List ℚ → ℚ → ℚ → ℚ
  | [], _, total => total
  | v :: rest, peak, total =>
    if peak < v then positive_delta_loop rest v (total + (v - peak))
    else positive_delta_loop rest peak total

/-- `_series_positive_delta`, abstracted over the sample values returned by the
historian query (empty history returns 0). -/
def series_positive_delta (samples : List ℚ) : ℤ :=
  match samples with
  | [] => 0
  | v0 :: _ => pyInt (positive_delta_loop samples v0 0)

/-- The spec's own algorithm text for `positiveDelta`: seed `peak` with the
first sample value; for each *subsequent* value `v`, if `v > peak` add
`(v − peak)` to the total and set `peak = v`, else ignore. -/
def spec_positive_delta : List ℚ → ℤ
  | [] => 0
  | v0 :: rest => pyInt (positive_delta_loop rest v0 0)

theorem series_positive_delta_eq_spec (samples : List ℚ) :
    series_positive_delta samples = spec_positive_delta samples := by
  cases samples with
  | nil => rfl
  | cons v0 rest =>
      simp only [series_positive_delta, spec_positive_delta, positive_delta_loop,
        lt_irrefl, if_false]

/-! ## ProductionRollup.run_rollups incremental accumulation

Source (`src/ProductionRollup.py`, lines 507-517): per-station in-memory state
update on every tick from the live counter value `curr`. -/

structure RollupState where
  last_peak : ℤ
  hour_total : ℤ
  shift_total : ℤ
  week_total : ℤ
deriving Repr, DecidableEq

/-- One reset-safe accumulation step of `run_rollups`:
if `curr ≥ last_peak` add the positive increment to all three totals and move
the peak; if `curr < last_peak` (counter reset/dip) accept the new baseline. -/
def accum_tick (s : RollupState) (curr : ℤ) : RollupState :=
  if s.last_peak ≤ curr then
    let inc := curr - s.last_peak
    if 0 < inc then
      { last_peak := curr,
        hour_total := s.hour_total + inc,
        shift_total := s.shift_total + inc,
        week_total := s.week_total + inc }
    else s
  else { s with last_peak := curr }

/-- **C2** The rollup tick's incremental accumulation is reset-safe: after a
tick with counter value `curr`, `last_peak = curr`; each of the three totals
grows by exactly `max 0 (curr − last_peak)` — a positive delta when
`curr ≥ last_peak` and no (negative) delta when `curr < last_peak`.  For the
tick-observed sequence 50, 55, 0, 7 within one hour (state seeded at the first
observation 50), the accumulated `hour_total` is 12. -/
theorem accum_tick_reset_safe :
    (∀ (s : RollupState) (curr : ℤ),
      (accum_tick s curr).last_peak = curr ∧
      (accum_tick s curr).hour_total = s.hour_total + max 0 (curr - s.last_peak) ∧
      (accum_tick s curr).shift_total = s.shift_total + max 0 (curr - s.last_peak) ∧
      (accum_tick s curr).week_total = s.week_total + max 0 (curr - s.last_peak)) ∧
    (List.foldl accum_tick ⟨50, 0, 0, 0⟩ [55, 0, 7]).hour_total = 12 := by
  constructor
  · intro s curr
    unfold accum_tick
    dsimp only
    split <;> rename_i h1
    · split <;> rename_i h2
      · refine ⟨rfl, ?_, ?_, ?_⟩ <;> simp <;> omega
      · refine ⟨by omega, ?_, ?_, ?_⟩ <;> simp <;> omega
    · refine ⟨rfl, ?_, ?_, ?_⟩ <;> simp <;> omega
  · decide

/-- **C1 counterexample**: the code's reset-safe positive delta over the sample
series [10,11,12,3,4,5,13] is 3 (increases 11−10, 12−11, 13−12 above the
running peak), not 13 as the claim states. -/
theorem series_positive_delta_example_ne_13 :
    series_positive_delta [10, 11, 12, 3, 4, 5, 13] = 3 ∧ (3 : ℤ) ≠ 13 := by
  constructor
  · norm_num [series_positive_delta, positive_delta_loop, pyInt]
  · decide

/-- **C1 (amended)**: `_series_positive_delta` computes the reset-safe sum of
increases exactly as the spec's algorithm text describes (seed `peak` with the
first sample value, add `v − peak` and move the peak whenever `v > peak`,
ignore `v ≤ peak`); for the input sequence [10,11,12,3,4,5,13] it returns 3
(not 13). -/
theorem series_positive_delta_spec :
    (∀ samples : List ℚ,
      series_positive_delta samples = spec_positive_delta samples) ∧
    series_positive_delta [10, 11, 12, 3, 4, 5, 13] = 3 := by
  refine ⟨series_positive_delta_eq_spec, ?_⟩
  norm_num [series_positive_delta, positive_delta_loop, pyInt]

/-! ## OvercyclePublisher._compute_deltas_for_line

Source (`src/OvercyclePublisher.py`, lines 392-446): per-station scan of the
CycleTime history; a sample `act` under segment `(ct, mult)` is skipped when
`ct ≤ 0`, when `act ≤ ct`, when `act > ct*mult` (idle/changeover) and when the
epsilon-gate fires (`EPSILON = 0.00` in the source, so never); otherwise it
contributes `over = act − ct` to `(cnt, sum_over, mx)`. -/

def EPSILON : ℚ := 0

/-- The body of the sample loop of `_compute_deltas_for_line`, acting on the
accumulator `(cnt, sum_over, mx)`. -/
def oct_step (ct mult : ℚ) (acc : ℕ × ℚ × ℚ) (act : ℚ) : ℕ × ℚ × ℚ :=
  if ct ≤ 0 then acc
  else if act ≤ ct then acc
  else if ct * mult < act then acc
  else if 0 < EPSILON ∧ act < ct * (1 + EPSILON) then acc
  else
    (acc.1 + 1, acc.2.1 + (act - ct),
      if acc.2.2 < act - ct then act - ct else acc.2.2)

/-- Whether one sample is classified as an overcycle event (the loop body's
skip chain, as a predicate). -/
def is_overcycle (ct mult act : ℚ) : Bool :=
  if ct ≤ 0 then false
  else if act ≤ ct then false
  else if ct * mult < act then false
  else if 0 < EPSILON ∧ act < ct * (1 + EPSILON) then false
  else true

/-- `(cnt, sum_over, mx)` for one station over a window's history samples,
under a fixed applicable segment `(ct, mult)`. -/
def oct_totals (ct mult : ℚ) (samples : List ℚ) : ℕ × ℚ × ℚ :=
  samples.foldl (oct_step ct mult) (0, 0, 0)

/-- **C3** A history sample `act` under an applicable segment `(ct, mult)` with
`ct > 0` is classified as overcycle iff `ct < act ≤ ct · mult` (`act ≤ ct`
is not overcycle; `act > ct · mult` is discarded as idle/changeover), the loop
body adds `over = act − ct` exactly for classified samples, and for the segment
`(ct=30, mult=2.0)` the samples [29, 35, 61, 45] yield
`cnt = 2, sum_over = 20, max_over = 15`. -/
theorem overcycle_classification :
    (∀ ct mult act : ℚ, 0 < ct →
      (is_overcycle ct mult act = true ↔ (ct < act ∧ act ≤ ct * mult))) ∧
    (∀ (ct mult : ℚ) (acc : ℕ × ℚ × ℚ) (act : ℚ),
      oct_step ct mult acc act =
        if is_overcycle ct mult act then
          (acc.1 + 1, acc.2.1 + (act - ct),
            if acc.2.2 < act - ct then act - ct else acc.2.2)
        else acc) ∧
    oct_totals 30 2 [29, 35, 61, 45] = (2, 20, 15) := by
  refine ⟨?_, ?_, ?_⟩
  · intro ct mult act hct
    have he : ¬ ((0 : ℚ) < EPSILON ∧ act < ct * (1 + EPSILON)) := by
      rintro ⟨h0, _⟩
      norm_num [EPSILON] at h0
    unfold is_overcycle
    rw [if_neg (not_le.mpr hct)]
    by_cases h1 : act ≤ ct
    · rw [if_pos h1]
      simp only [Bool.false_eq_true, false_iff, not_and]
      exact fun hlt _ => absurd h1 (not_le.mpr hlt)
    · rw [if_neg h1]
      by_cases h2 : ct * mult < act
      · rw [if_pos h2]
        simp only [Bool.false_eq_true, false_iff, not_and]
        exact fun _ hle => absurd h2 (not_lt.mpr hle)
      · rw [if_neg h2, if_neg he]
        constructor
        · exact fun _ => ⟨lt_of_not_le h1, le_of_not_lt h2⟩
        · exact fun _ => rfl
  · intro ct mult acc act
    unfold oct_step is_overcycle
    repeat' split
    all_goals simp_all
  · show oct_totals 30 2 [29, 35, 61, 45] = (2, 20, 15)
    norm_num [oct_totals, oct_step, EPSILON, List.foldl]

/-- Witness for the hypothesis of `overcycle_classification`. -/
theorem overcycle_classification_witness :
    (0 : ℚ) < 30 ∧
      (is_overcycle 30 2 35 = true ↔ ((30 : ℚ) < 35 ∧ (35 : ℚ) ≤ 30 * 2)) :=
  ⟨by norm_num, overcycle_classification.1 30 2 35 (by norm_num)⟩

/-! ## ProductionTargetsLive._ct_eff_from_cts

Source (`src/ProductionTargetsLive.py`, lines 451-474): filter the configured
per-fixture CTs to the positive ones; 0 CTs → 0.0, 1 CT → that value, 2+ CTs →
blend of arithmetic mean and max/len by the clamped parallelism factor
(`fixtures_per_side` is accepted but unused by the function). -/

/-- Python `max(...)` over a non-empty list. -/
def pyMax (l : List ℚ) : ℚ := l.foldl max (l.headD 0)

def ct_eff_from_cts (ct_list : List ℚ) (fixtures_per_side : ℤ)
    (parallelism_factor : Option ℚ) : ℚ :=
  let cts := ct_list.filter (fun c => decide (0 < c))
  if cts = [] then 0
  else if cts.length = 1 then cts.headD 0
  else
    let k : ℚ := (cts.length : ℚ)
    let mean_ct := cts.sum / k
    let par_ct := pyMax cts / k
    match parallelism_factor with
    | none => mean_ct
    | some pf =>
      let lam := max 0 (min 1 pf)
      (1 - lam) * mean_ct + lam * par_ct

/-- **C4** Effective CT from per-fixture cycle times: 0.0 for an empty list,
the single value for k = 1, and `(1−λ)·mean + λ·(max/k)` with λ clamped to
[0,1] for k ≥ 2; for CTs [30, 50] with λ = 0.5 the result is 65/2 = 32.5. -/
theorem ct_eff_blend :
    (∀ (fps : ℤ) (lam : ℚ), ct_eff_from_cts [] fps (some lam) = 0) ∧
    (∀ (c : ℚ) (fps : ℤ) (lam : ℚ), 0 < c →
      ct_eff_from_cts [c] fps (some lam) = c) ∧
    (∀ (l : List ℚ) (fps : ℤ) (lam : ℚ), (∀ c ∈ l, 0 < c) → 2 ≤ l.length →
      ct_eff_from_cts l fps (some lam) =
        (1 - max 0 (min 1 lam)) * (l.sum / (l.length : ℚ)) +
          max 0 (min 1 lam) * (pyMax l / (l.length : ℚ))) ∧
    ct_eff_from_cts [30, 50] 2 (some (1/2)) = 65/2 := by
  refine ⟨?_, ?_, ?_, ?_⟩
  · intro fps lam
    simp [ct_eff_from_cts]
  · intro c fps lam hc
    simp [ct_eff_from_cts, List.filter, decide_eq_true hc]
  · intro l fps lam hpos hlen
    have hf : l.filter (fun c => decide (0 < c)) = l :=
      List.filter_eq_self.mpr fun a ha => decide_eq_true (hpos a ha)
    unfold ct_eff_from_cts
    rw [hf]
    rw [if_neg (by intro h; rw [h] at hlen; simp at hlen),
      if_neg (by omega)]
  · norm_num [ct_eff_from_cts, pyMax, List.filter, max_def, min_def]
    simp

/-- Witness for the hypotheses of `ct_eff_blend` (third conjunct at
`l = [30, 50]`, `λ = 1/2`). -/
theorem ct_eff_blend_witness :
    (∀ c ∈ ([30, 50] : List ℚ), 0 < c) ∧ 2 ≤ ([30, 50] : List ℚ).length ∧
      ct_eff_from_cts [30, 50] 2 (some (1/2)) =
        (1 - max 0 (min 1 (1/2 : ℚ))) *
            (([30, 50] : List ℚ).sum / (([30, 50] : List ℚ).length : ℚ)) +
          max 0 (min 1 (1/2 : ℚ)) *
            (pyMax [30, 50] / (([30, 50] : List ℚ).length : ℚ)) :=
  ⟨by norm_num, by norm_num,
    ct_eff_blend.2.2.1 [30, 50] 2 (1/2) (by norm_num) (by norm_num)⟩

/-! ## TagValueChange._and_tristate

Source (`src/TagValueChange.py`, lines 361-381): AND-reduce a list of
tri-state values; early-return `False` on any `False`; otherwise track
`saw_none` / `saw_true` flags and combine them at the end. -/

def and_loop : List (Option Bool) → Bool → Bool → Option Bool
  | [], saw_none, saw_true =>
      if saw_none && !saw_true then none
      else if saw_none && saw_true then none
      else if saw_true then some true else none
  | v :: rest, saw_none, saw_true =>
      match v with
      | some false => some false
      | none => and_loop rest true saw_true
      | some true => and_loop rest saw_none true

/-- `_and_tristate(values)`. -/
def and_tristate (values : List (Option Bool)) : Option Bool :=
  and_loop values false false

theorem and_loop_charn (vs : List (Option Bool)) (sn st : Bool) :
    and_loop vs sn st =
      if some false ∈ vs then some false
      else if sn = true ∨ none ∈ vs then none
      else if st = true ∨ some true ∈ vs then some true
      else none := by
  induction vs generalizing sn st with
  | nil => cases sn <;> cases st <;> simp [and_loop]
  | cons v rest ih =>
    match v with
    | some false => simp [and_loop]
    | none =>
      rw [show and_loop (none :: rest) sn st = and_loop rest true st from rfl, ih]
      simp
    | some true =>
      rw [show and_loop (some true :: rest) sn st = and_loop rest sn true from rfl,
        ih]
      by_cases hf : some false ∈ rest
      · simp [hf]
      · by_cases hn : (none : Option Bool) ∈ rest
        · simp [hf, hn]
        · simp [hf, hn]

/-- **C9 counterexample**: on the empty list (vacuously "all values true") the
AND-reduce returns unknown (`none`), not `true`. -/
theorem and_tristate_empty_counterexample :
    and_tristate [] = none ∧ (none : Option Bool) ≠ some true := by
  constructor
  · rfl
  · decide

/-- **C9 (amended)**: over a *non-empty* list of tri-state values, the
AND-reduce returns `false` whenever some value is `false`; otherwise `unknown`
whenever some value is `unknown`; otherwise (all values `true`) it returns
`true`.  The empty list yields `unknown`. -/
theorem and_tristate_charn :
    (∀ vs : List (Option Bool), vs ≠ [] →
      and_tristate vs =
        (if some false ∈ vs then some false
         else if none ∈ vs then none
         else some true)) ∧
    and_tristate [] = none := by
  constructor
  · intro vs hne
    rw [and_tristate, and_loop_charn]
    simp only [Bool.false_eq_true, false_or]
    by_cases hf : some false ∈ vs
    · simp [hf]
    · by_cases hn : (none : Option Bool) ∈ vs
      · simp [hf, hn]
      · have ht : some true ∈ vs := by
          cases vs with
          | nil => exact absurd rfl hne
          | cons v rest =>
            match v with
            | some false => exact absurd (List.mem_cons_self _ _) hf
            | none => exact absurd (List.mem_cons_self _ _) hn
            | some true => exact List.mem_cons_self _ _
        simp [hf, hn, ht]
  · rfl

/-- Witness for the hypothesis of `and_tristate_charn` (first conjunct at a
concrete non-empty list). -/
theorem and_tristate_charn_witness :
    ([some true, none] : List (Option Bool)) ≠ [] ∧
      and_tristate [some true, none] =
        (if some false ∈ ([some true, none] : List (Option Bool)) then some false
         else if none ∈ ([some true, none] : List (Option Bool)) then none
         else some true) :=
  ⟨by decide, and_tristate_charn.1 [some true, none] (by decide)⟩

/-! ## ProductionTargetsLive.run_targets parts-set debounce

Source (`src/ProductionTargetsLive.py`, lines 745-764 and the commit at line
878): per tick the parts key is compared against the stored key; on a match
`stable_ticks = min(DEBOUNCE_TICKS, stable_ticks + 1)`, on a change
`stable_ticks = 1` (or `DEBOUNCE_TICKS` for missing-configuration); the new CT
is applied when `stable_ticks >= DEBOUNCE_TICKS`; missing-configuration forces
`ct_eff_new = 0.0` regardless; with no live parts the CT is only seeded from
config when the stored CT is falsy. -/

def DEBOUNCE_TICKS : ℕ := 1

structure DebounceState where
  last_parts_key : String
  stable_ticks : ℕ
  ct_eff : ℚ
deriving Repr, DecidableEq

/-- One tick of the debounce / CT-commit logic, parameterized by the threshold
`d` (the source's `DEBOUNCE_TICKS`).  `ct_candidate` is
`_ct_eff_from_cts(ct_list, fps, lam)` for the observed parts, `seed_candidate`
the value seeded from the slowest configured parts when no live parts are
present (`cfg_has_cts` = configured CT map non-empty). -/
def debounce_tick (d : ℕ) (s : DebounceState) (parts_key : String)
    (is_missing_cfg : Bool) (has_parts : Bool) (ct_candidate : ℚ)
    (cfg_has_cts : Bool) (seed_candidate : ℚ) : DebounceState :=
  let s1 :=
    if parts_key = s.last_parts_key then
      { s with stable_ticks := min d (s.stable_ticks + 1) }
    else
      { s with last_parts_key := parts_key,
               stable_ticks := if is_missing_cfg then d else 1 }
  if is_missing_cfg then { s1 with ct_eff := 0 }
  else if has_parts then
    if d ≤ s1.stable_ticks then { s1 with ct_eff := ct_candidate } else s1
  else
    if s1.ct_eff = 0 ∧ cfg_has_cts then { s1 with ct_eff := seed_candidate }
    else s1

/-- **C6 counterexample**: with the default `DEBOUNCE_TICKS = 1`, a changed
parts set takes effect on the very first tick it is seen: from a state with
parts key "A" and CT 30, one tick observing parts key "B" with candidate CT 50
already commits CT 50 — not two consecutive sightings as the claim states. -/
theorem debounce_single_tick_counterexample :
    (debounce_tick DEBOUNCE_TICKS ⟨"A", 1, 30⟩ "B" false true 50 false 0).ct_eff
        = 50 ∧
      (50 : ℚ) ≠ 30 := by
  constructor
  · rfl
  · norm_num

/-- **C6 (amended)**: the CT commit is gated by
`stable_ticks ≥ DEBOUNCE_TICKS`, where a changed parts set sets
`stable_ticks = 1` and a repeated parts set sets
`stable_ticks = min DEBOUNCE_TICKS (stable_ticks + 1)`; hence with the default
`DEBOUNCE_TICKS = 1` a changed parts set takes effect immediately on the first
tick it is seen (a delay exists only for thresholds ≥ 2), and
missing-configuration bypasses the debounce, setting
`stable_ticks = DEBOUNCE_TICKS` and forcing CT 0 at once. -/
theorem debounce_behavior :
    DEBOUNCE_TICKS = 1 ∧
    (∀ (d : ℕ) (s : DebounceState) (k : String) (c sc : ℚ) (cfg : Bool),
      k ≠ s.last_parts_key →
        (debounce_tick d s k false true c cfg sc).stable_ticks = 1 ∧
        (debounce_tick d s k false true c cfg sc).ct_eff =
          (if d ≤ 1 then c else s.ct_eff)) ∧
    (∀ (d : ℕ) (s : DebounceState) (c sc : ℚ) (cfg : Bool),
      (debounce_tick d s s.last_parts_key false true c cfg sc).stable_ticks =
          min d (s.stable_ticks + 1) ∧
        (debounce_tick d s s.last_parts_key false true c cfg sc).ct_eff =
          (if d ≤ min d (s.stable_ticks + 1) then c else s.ct_eff)) ∧
    (∀ (d : ℕ) (s : DebounceState) (k : String) (c sc : ℚ) (cfg hp : Bool),
      (debounce_tick d s k true hp c cfg sc).ct_eff = 0 ∧
        (debounce_tick d s k true hp c cfg sc).stable_ticks =
          (if k = s.last_parts_key then min d (s.stable_ticks + 1) else d)) := by
  refine ⟨rfl, ?_, ?_, ?_⟩
  · intro d s k c sc cfg hk
    by_cases hd : d ≤ 1 <;> simp [debounce_tick, hk, hd]
  · intro d s c sc cfg
    by_cases hd : d ≤ s.stable_ticks + 1 <;>
      simp [debounce_tick, hd, Nat.min_def]
  · intro d s k c sc cfg hp
    unfold debounce_tick
    by_cases hk : k = s.last_parts_key
    · rw [if_pos hk]
      simp [hk]
    · rw [if_neg hk]
      simp [hk]

/-- Witness for the hypothesis of `debounce_behavior` (second conjunct at a
concrete changed parts key). -/
theorem debounce_behavior_witness :
    ("B" : String) ≠ (DebounceState.mk "A" 1 30).last_parts_key ∧
      (debounce_tick 1 ⟨"A", 1, 30⟩ "B" false true 50 false 0).stable_ticks = 1 ∧
      (debounce_tick 1 ⟨"A", 1, 30⟩ "B" false true 50 false 0).ct_eff =
        (if (1 : ℕ) ≤ 1 then (50 : ℚ) else (30 : ℚ)) :=
  ⟨by decide, debounce_behavior.2.1 1 ⟨"A", 1, 30⟩ "B" 50 0 false (by decide)⟩

/-! ## Overcycle cumulative anchor rows (C10)

Source (`src/OvercyclePublisher.py`, lines 428-446): the emitted row carries
`inc_over_cnt = int(cnt)`, `inc_over_sec = round(sum_over, 3)`,
`inc_max_over_sec = round(mx, 3)`; a seeded zero row is emitted from the
untouched accumulator `(0, 0.0, 0.0)`. -/

structure AnchorRow where
  inc_over_cnt : ℤ
  inc_over_sec : ℚ
  inc_max_over_sec : ℚ
deriving Repr, DecidableEq

/-- The delta fields of the emitted cumulative anchor row, from the station's
`(cnt, sum_over, mx)` accumulator. -/
def mk_anchor_row (t : ℕ × ℚ × ℚ) : AnchorRow :=
  ⟨(t.1 : ℤ), round3 t.2.1, round3 t.2.2⟩

theorem oct_step_preserves (ct mult : ℚ) (acc : ℕ × ℚ × ℚ) (act : ℚ)
    (h : 0 ≤ acc.2.1 ∧ 0 ≤ acc.2.2 ∧ acc.2.2 ≤ acc.2.1) :
    0 ≤ (oct_step ct mult acc act).2.1 ∧
      0 ≤ (oct_step ct mult acc act).2.2 ∧
      (oct_step ct mult acc act).2.2 ≤ (oct_step ct mult acc act).2.1 := by
  obtain ⟨h1, h2, h3⟩ := h
  unfold oct_step
  split
  · exact ⟨h1, h2, h3⟩
  split
  · exact ⟨h1, h2, h3⟩
  split
  · exact ⟨h1, h2, h3⟩
  split
  · exact ⟨h1, h2, h3⟩
  rename_i hct hact hmul hep
  have hover : 0 < act - ct := by
    have := lt_of_not_le hact
    linarith
  refine ⟨by simp; linarith, ?_, ?_⟩
  · simp only
    split <;> linarith
  · simp only
    split <;> linarith

theorem oct_totals_invariant (ct mult : ℚ) (samples : List ℚ) :
    0 ≤ (oct_totals ct mult samples).2.1 ∧
      0 ≤ (oct_totals ct mult samples).2.2 ∧
      (oct_totals ct mult samples).2.2 ≤ (oct_totals ct mult samples).2.1 := by
  unfold oct_totals
  generalize hacc : ((0, 0, 0) : ℕ × ℚ × ℚ) = acc
  have hinv : 0 ≤ acc.2.1 ∧ 0 ≤ acc.2.2 ∧ acc.2.2 ≤ acc.2.1 := by
    rw [← hacc]; exact ⟨le_refl 0, le_refl 0, le_refl 0⟩
  clear hacc
  induction samples generalizing acc with
  | nil => exact hinv
  | cons a rest ih =>
    simp only [List.foldl_cons]
    exact ih _ (oct_step_preserves ct mult acc a hinv)

/-- **C10** Every cumulative anchor row produced by the overcycle delta
computation satisfies `inc_over_cnt ≥ 0`, `inc_over_sec ≥ 0`,
`inc_max_over_sec ≥ 0` and `inc_max_over_sec ≤ inc_over_sec` (the largest
single overage never exceeds the summed overage); the seeded zero row (emitted
from the untouched accumulator) carries all three values equal to 0. -/
theorem anchor_row_invariants :
    (∀ (ct mult : ℚ) (samples : List ℚ),
      0 ≤ (mk_anchor_row (oct_totals ct mult samples)).inc_over_cnt ∧
      0 ≤ (mk_anchor_row (oct_totals ct mult samples)).inc_over_sec ∧
      0 ≤ (mk_anchor_row (oct_totals ct mult samples)).inc_max_over_sec ∧
      (mk_anchor_row (oct_totals ct mult samples)).inc_max_over_sec ≤
        (mk_anchor_row (oct_totals ct mult samples)).inc_over_sec) ∧
    mk_anchor_row (0, 0, 0) = ⟨0, 0, 0⟩ := by
  constructor
  · intro ct mult samples
    obtain ⟨h1, h2, h3⟩ := oct_totals_invariant ct mult samples
    refine ⟨?_, ?_, ?_, ?_⟩
    · exact Int.ofNat_nonneg _
    · exact round3_nonneg h1
    · exact round3_nonneg h2
    · exact round3_mono h3
  · show (⟨((0 : ℕ) : ℤ), round3 0, round3 0⟩ : AnchorRow) = ⟨0, 0, 0⟩
    rw [round3_zero]
    norm_num

/-! ## OvercyclePublisher._ct_at

Source (`src/OvercyclePublisher.py`, lines 244-254): clamp the hint into
range (else 0), advance while the next segment's start is ≤ t, then retreat
while the current segment's start is > t; return the segment at the final
index (`(0.0, 2.0, i)` for an empty segment list). -/

/-- First while loop of `_ct_at`: `while i + 1 < len(segs) and segs[i+1][0] <= tms: i += 1`. -/
def ct_advance (starts : List ℤ) (t : ℤ) (i : ℕ) : ℕ :=
  if h : i + 1 < starts.length ∧ starts.getD (i + 1) 0 ≤ t then
    ct_advance starts t (i + 1)
  else i
termination_by starts.length - i
decreasing_by omega

/-- Second while loop of `_ct_at`: `while i > 0 and segs[i][0] > tms: i -= 1`. -/
def ct_retreat (starts : List ℤ) (t : ℤ) : ℕ → ℕ
  | 0 => 0
  | i + 1 => if t < starts.getD (i + 1) 0 then ct_retreat starts t i else i + 1

/-- The segment-start timestamps, in list order. -/
def seg_starts (segs : List (ℤ × ℚ × ℚ)) : List ℤ := segs.map Prod.fst

/-- `_ct_at(ts, segs, i_hint)` over segments `(effective_from, ct, mult)`. -/
def ct_at (t : ℤ) (segs : List (ℤ × ℚ × ℚ)) (i_hint : ℤ) : ℚ × ℚ × ℕ :=
  let starts := seg_starts segs
  let i0 : ℕ :=
    if 0 ≤ i_hint ∧ i_hint < (segs.length : ℤ) then i_hint.toNat else 0
  let i := ct_retreat starts t (ct_advance starts t i0)
  if segs.isEmpty then (0, 2, i)
  else ((segs.getD i (0, 0, 2)).2.1, (segs.getD i (0, 0, 2)).2.2, i)

theorem ct_advance_fuel_spec (starts : List ℤ) (t : ℤ) :
    ∀ (fuel i : ℕ), starts.length - i ≤ fuel → i < starts.length →
      i ≤ ct_advance starts t i ∧
      ct_advance starts t i < starts.length ∧
      (ct_advance starts t i + 1 < starts.length →
        t < starts.getD (ct_advance starts t i + 1) 0) ∧
      (ct_advance starts t i ≠ i → starts.getD (ct_advance starts t i) 0 ≤ t) := by
  intro fuel
  induction fuel with
  | zero => intro i hf hi; omega
  | succ n ih =>
    intro i hf hi
    rw [ct_advance]
    split
    · rename_i h
      obtain ⟨ha, hb, hc, hd⟩ := ih (i + 1) (by omega) h.1
      refine ⟨by omega, hb, hc, fun _ => ?_⟩
      by_cases he : ct_advance starts t (i + 1) = i + 1
      · rw [he]; exact h.2
      · exact hd he
    · rename_i h
      push_neg at h
      exact ⟨le_refl i, hi, fun hlt => h hlt, fun hne => absurd rfl hne⟩

theorem ct_advance_spec (starts : List ℤ) (t : ℤ) (i : ℕ) (hi : i < starts.length) :
    i ≤ ct_advance starts t i ∧
      ct_advance starts t i < starts.length ∧
      (ct_advance starts t i + 1 < starts.length →
        t < starts.getD (ct_advance starts t i + 1) 0) ∧
      (ct_advance starts t i ≠ i → starts.getD (ct_advance starts t i) 0 ≤ t) :=
  ct_advance_fuel_spec starts t starts.length i (by omega) hi

theorem ct_retreat_spec (starts : List ℤ) (t : ℤ) :
    ∀ i : ℕ, ct_retreat starts t i ≤ i ∧
      (∀ m : ℕ, ct_retreat starts t i < m → m ≤ i → t < starts.getD m 0) ∧
      (ct_retreat starts t i = 0 ∨ starts.getD (ct_retreat starts t i) 0 ≤ t) := by
  intro i
  induction i with
  | zero => exact ⟨le_refl 0, fun m h1 h2 => by omega, Or.inl rfl⟩
  | succ k ih =>
    unfold ct_retreat
    split
    · rename_i h
      obtain ⟨ha, hb, hc⟩ := ih
      refine ⟨by omega, fun m h1 h2 => ?_, hc⟩
      by_cases hm : m ≤ k
      · exact hb m h1 hm
      · have : m = k + 1 := by omega
        rw [this]; exact h
    · rename_i h
      exact ⟨le_refl _, fun m h1 h2 => by omega, Or.inr (le_of_not_lt h)⟩

/-- **C8 counterexample**: for a single segment starting at time 10 and lookup
time t = 0 (before every segment start), `_ct_at` returns that segment even
though no segment has `effective_from_utc ≤ t`; the claim's "returns the
segment with the greatest `effective_from_utc ≤ t` for any timestamp" fails. -/
theorem ct_at_before_first_counterexample :
    ct_at 0 [(10, 5, 2)] 0 = (5, 2, 0) ∧ ¬ ((10 : ℤ) ≤ 0) := by
  have hadv : ct_advance [(10 : ℤ)] 0 0 = 0 := by
    rw [ct_advance]
    simp
  constructor
  · norm_num [ct_at, hadv, ct_retreat, seg_starts]
  · decide

/-- **C8 (amended)**: for a non-empty CT segment list with strictly increasing
starts and any lookup time `t` that is not earlier than the first start, the
lookup returns, for every starting hint, the segment with the greatest
`effective_from_utc ≤ t` (its `(ct, mult)` pair and its index); for `t` before
the first start the lookup degrades to the first segment. -/
theorem ct_at_greatest :
    ∀ (segs : List (ℤ × ℚ × ℚ)) (t i_hint : ℤ),
      segs ≠ [] →
      (∀ i j : ℕ, i < j → j < segs.length →
        (seg_starts segs).getD i 0 < (seg_starts segs).getD j 0) →
      (seg_starts segs).getD 0 0 ≤ t →
      (ct_at t segs i_hint).2.2 < segs.length ∧
      (seg_starts segs).getD (ct_at t segs i_hint).2.2 0 ≤ t ∧
      (∀ j : ℕ, j < segs.length → (seg_starts segs).getD j 0 ≤ t →
        j ≤ (ct_at t segs i_hint).2.2) ∧
      ct_at t segs i_hint =
        ((segs.getD (ct_at t segs i_hint).2.2 (0, 0, 2)).2.1,
          (segs.getD (ct_at t segs i_hint).2.2 (0, 0, 2)).2.2,
          (ct_at t segs i_hint).2.2) := by
  intro segs t i_hint hne hsort ht
  have hlen : (seg_starts segs).length = segs.length := List.length_map _ _
  have hpos : 0 < segs.length := List.length_pos.mpr hne
  have hi0 : (if 0 ≤ i_hint ∧ i_hint < (segs.length : ℤ) then i_hint.toNat else 0)
      < (seg_starts segs).length := by
    rw [hlen]
    split
    · rename_i h
      omega
    · exact hpos
  set i0 : ℕ := if 0 ≤ i_hint ∧ i_hint < (segs.length : ℤ) then i_hint.toNat else 0
    with hi0def
  obtain ⟨ha1, ha2, ha3, ha4⟩ := ct_advance_spec (seg_starts segs) t i0 hi0
  set j := ct_advance (seg_starts segs) t i0 with hjdef
  obtain ⟨hr1, hr2, hr3⟩ := ct_retreat_spec (seg_starts segs) t j
  set k := ct_retreat (seg_starts segs) t j with hkdef
  have hklen : k < segs.length := by rw [← hlen]; omega
  have hkt : (seg_starts segs).getD k 0 ≤ t := by
    rcases hr3 with h0 | hle
    · rw [h0]; exact ht
    · exact hle
  have hmax : ∀ jj : ℕ, jj < segs.length → (seg_starts segs).getD jj 0 ≤ t →
      jj ≤ k := by
    intro jj hjjlen hjjle
    by_contra hgt
    push_neg at hgt
    by_cases hjj : jj ≤ j
    · exact absurd hjjle (not_le.mpr (hr2 jj hgt hjj))
    · push_neg at hjj
      have hj1 : j + 1 < segs.length := by omega
      have hstep : t < (seg_starts segs).getD (j + 1) 0 := by
        apply ha3; rw [hlen]; exact hj1
      have hmono : (seg_starts segs).getD (j + 1) 0 ≤ (seg_starts segs).getD jj 0 := by
        rcases Nat.lt_or_ge (j + 1) jj with hlt | hge
        · exact le_of_lt (hsort (j + 1) jj hlt hjjlen)
        · have : j + 1 = jj := by omega
          rw [this]
      exact absurd hjjle (not_le.mpr (lt_of_lt_of_le hstep hmono))
  have hct : ct_at t segs i_hint =
      ((segs.getD k (0, 0, 2)).2.1, (segs.getD k (0, 0, 2)).2.2, k) := by
    rw [ct_at]
    have hemp : segs.isEmpty = false := by
      cases segs with
      | nil => exact absurd rfl hne
      | cons a l => rfl
    simp only [hemp, Bool.false_eq_true, if_false, ← hi0def, ← hjdef, ← hkdef]
  rw [hct]
  exact ⟨hklen, hkt, hmax, rfl⟩

/-- Witness for the hypotheses of `ct_at_greatest` (two sorted segments,
lookup between the two starts, arbitrary hint). -/
theorem ct_at_greatest_witness :
    (([(10, 5, 2), (20, 7, 3)] : List (ℤ × ℚ × ℚ)) ≠ [] ∧
      (∀ i j : ℕ, i < j → j < ([(10, 5, 2), (20, 7, 3)] : List (ℤ × ℚ × ℚ)).length →
        (seg_starts [(10, 5, 2), (20, 7, 3)]).getD i 0 <
          (seg_starts [(10, 5, 2), (20, 7, 3)]).getD j 0) ∧
      (seg_starts [(10, 5, 2), (20, 7, 3)]).getD 0 0 ≤ (15 : ℤ)) ∧
      ((ct_at 15 [(10, 5, 2), (20, 7, 3)] 1).2.2 <
          ([(10, 5, 2), (20, 7, 3)] : List (ℤ × ℚ × ℚ)).length ∧
        (seg_starts [(10, 5, 2), (20, 7, 3)]).getD
            (ct_at 15 [(10, 5, 2), (20, 7, 3)] 1).2.2 0 ≤ 15 ∧
        (∀ j : ℕ, j < ([(10, 5, 2), (20, 7, 3)] : List (ℤ × ℚ × ℚ)).length →
          (seg_starts [(10, 5, 2), (20, 7, 3)]).getD j 0 ≤ 15 →
            j ≤ (ct_at 15 [(10, 5, 2), (20, 7, 3)] 1).2.2) ∧
        ct_at 15 [(10, 5, 2), (20, 7, 3)] 1 =
          ((([(10, 5, 2), (20, 7, 3)] : List (ℤ × ℚ × ℚ)).getD
              (ct_at 15 [(10, 5, 2), (20, 7, 3)] 1).2.2 (0, 0, 2)).2.1,
            (([(10, 5, 2), (20, 7, 3)] : List (ℤ × ℚ × ℚ)).getD
              (ct_at 15 [(10, 5, 2), (20, 7, 3)] 1).2.2 (0, 0, 2)).2.2,
            (ct_at 15 [(10, 5, 2), (20, 7, 3)] 1).2.2)) :=
  ⟨⟨by decide,
      by
        intro i j hij hj
        have hj2 : j < 2 := by simpa using hj
        have hij01 : i = 0 ∧ j = 1 := by omega
        obtain ⟨hi0, hj1⟩ := hij01
        subst hi0
        subst hj1
        decide,
      by decide⟩,
    ct_at_greatest [(10, 5, 2), (20, 7, 3)] 15 1 (by decide)
      (by
        intro i j hij hj
        have hj2 : j < 2 := by simpa using hj
        have hij01 : i = 0 ∧ j = 1 := by omega
        obtain ⟨hi0, hj1⟩ := hij01
        subst hi0
        subst hj1
        decide)
      (by decide)⟩

/-! ## Shift finalization (C7)

Two pieces from the source:

* `ProductionRollup._reconcile_late_shifts_for_station`
  (`src/ProductionRollup.py`, lines 163-194): iterate past shift windows,
  skip each whose key `"<shift_id>|<day>"` is already in
  `past_shift_done_keys`, otherwise append one closed row and add the key.

* `OvercyclePublisher.run_overcycle` finalize branch
  (`src/OvercyclePublisher.py`, lines 511-626): for the last ended shift
  within the grace window, the catch-up station delta upsert is guarded by
  `last_as_of < shift_end` (and rows being present), while the final
  leaderboard publishes (when a hierarchy exists) and the final line snapshot
  upsert run unconditionally on every such tick. -/

def reconcile_key (shid : ℤ) (day : String) : String :=
  toString shid ++ "|" ++ day

/-- `_reconcile_late_shifts_for_station`, reduced to its row-emission control
flow: fold over the past shift windows, skipping keys already in the
done set; returns (emitted closed rows, updated done set). -/
def reconcile_late_shifts (past_windows : List (ℤ × String))
    (done : List String) : List (ℤ × String) × List String :=
  past_windows.foldl
    (fun (p : List (ℤ × String) × List String) w =>
      if reconcile_key w.1 w.2 ∈ p.2 then p
      else (p.1 ++ [w], p.2 ++ [reconcile_key w.1 w.2]))
    ([], done)

theorem reconcile_foldl_done_grows (past_windows : List (ℤ × String)) :
    ∀ (rows : List (ℤ × String)) (done : List String) (k : String),
      k ∈ done →
      k ∈ (past_windows.foldl
        (fun (p : List (ℤ × String) × List String) w =>
          if reconcile_key w.1 w.2 ∈ p.2 then p
          else (p.1 ++ [w], p.2 ++ [reconcile_key w.1 w.2]))
        (rows, done)).2 := by
  induction past_windows with
  | nil => intro rows done k hk; simpa using hk
  | cons w rest ih =>
    intro rows done k hk
    simp only [List.foldl_cons]
    split
    · exact ih rows done k hk
    · exact ih _ _ k (by simp [hk])

theorem reconcile_foldl_covers (past_windows : List (ℤ × String)) :
    ∀ (rows : List (ℤ × String)) (done : List String) (w : ℤ × String),
      w ∈ past_windows →
      reconcile_key w.1 w.2 ∈ (past_windows.foldl
        (fun (p : List (ℤ × String) × List String) w =>
          if reconcile_key w.1 w.2 ∈ p.2 then p
          else (p.1 ++ [w], p.2 ++ [reconcile_key w.1 w.2]))
        (rows, done)).2 := by
  induction past_windows with
  | nil => intro rows done w hw; simp at hw
  | cons v rest ih =>
    intro rows done w hw
    simp only [List.foldl_cons]
    rcases List.mem_cons.mp hw with heq | hmem
    · subst heq
      split
      · rename_i hin
        exact reconcile_foldl_done_grows rest _ _ _ hin
      · exact reconcile_foldl_done_grows rest _ _ _ (by simp)
    · split
      · exact ih rows done w hmem
      · exact ih _ _ w hmem

theorem reconcile_foldl_no_rows (past_windows : List (ℤ × String)) :
    ∀ (rows : List (ℤ × String)) (done : List String),
      (∀ w ∈ past_windows, reconcile_key w.1 w.2 ∈ done) →
      (past_windows.foldl
        (fun (p : List (ℤ × String) × List String) w =>
          if reconcile_key w.1 w.2 ∈ p.2 then p
          else (p.1 ++ [w], p.2 ++ [reconcile_key w.1 w.2]))
        (rows, done)).1 = rows := by
  induction past_windows with
  | nil => intro rows done _; rfl
  | cons v rest ih =>
    intro rows done hall
    simp only [List.foldl_cons]
    rw [if_pos (hall v (by simp))]
    exact ih rows done fun w hw => hall w (by simp [hw])

/-- The per-tick writes of the overcycle finalize branch for a just-ended
shift within the grace window, together with the resulting `last_as_of`
anchor (the catch-up rows are upserted with `as_of_local = shift_end`, so a
successful catch-up moves the anchor to `shift_end`). -/
def finalize_tick (last_asof shift_end : ℤ) (has_delta_rows : Bool)
    (has_hierarchy : Bool) : List String × ℤ :=
  ((if last_asof < shift_end ∧ has_delta_rows = true
      then ["upsertSlotStationBatch"] else []) ++
    (if has_hierarchy = true
      then ["publish TopOvercycleTotals", "publish TopOvercycleTimes"] else []) ++
    ["upsertSlotLineBatch"],
    if last_asof < shift_end ∧ has_delta_rows = true then shift_end else last_asof)

/-- **C7 counterexample**: after the finalize tick that reconciled a shift
(catch-up from `last_as_of = 0` to `shift_end = 1`), a second overcycle tick
within the grace window still performs writes for that shift — it re-publishes
both final leaderboards and re-upserts the final line snapshot — contradicting
"every subsequent tick within the grace window performs no further writes". -/
theorem finalize_second_tick_counterexample :
    (finalize_tick (finalize_tick 0 1 true true).2 1 true true).1 =
        ["publish TopOvercycleTotals", "publish TopOvercycleTimes",
          "upsertSlotLineBatch"] ∧
      (["publish TopOvercycleTotals", "publish TopOvercycleTimes",
          "upsertSlotLineBatch"] : List String) ≠ [] := by
  constructor
  · norm_num [finalize_tick]
  · simp

/-- **C7 (amended)**: the just-ended shift's *catch-up station delta* is
written at most once — the first finalize tick moves `last_as_of` to
`shift_end`, and once `last_as_of = shift_end` no subsequent tick writes the
station catch-up batch — and the rollup engine's late-shift reconciliation is
exactly-once per station via `past_shift_done_keys` (a second pass over the
same windows emits no rows); however, every subsequent overcycle tick within
the grace window still re-publishes the final leaderboards and re-upserts the
final line snapshot. -/
theorem finalize_once_amended :
    (∀ (past_windows : List (ℤ × String)) (done : List String),
      (reconcile_late_shifts past_windows
        (reconcile_late_shifts past_windows done).2).1 = []) ∧
    (∀ (a e : ℤ) (hh : Bool), a < e →
      "upsertSlotStationBatch" ∈ (finalize_tick a e true hh).1 ∧
      (finalize_tick a e true hh).2 = e) ∧
    (∀ (e : ℤ) (hd : Bool),
      "upsertSlotStationBatch" ∉ (finalize_tick e e hd true).1 ∧
      "upsertSlotLineBatch" ∈ (finalize_tick e e hd true).1) := by
  refine ⟨?_, ?_, ?_⟩
  · intro past_windows done
    unfold reconcile_late_shifts
    apply reconcile_foldl_no_rows
    intro w hw
    exact reconcile_foldl_covers past_windows [] done w hw
  · intro a e hh hae
    constructor
    · simp [finalize_tick, hae]
    · simp [finalize_tick, hae]
  · intro e hd
    constructor
    · simp [finalize_tick]
    · simp [finalize_tick]

/-- Witness for the hypothesis of `finalize_once_amended` (second conjunct at
`last_as_of = 0 < 1 = shift_end`). -/
theorem finalize_once_amended_witness :
    (0 : ℤ) < 1 ∧
      ("upsertSlotStationBatch" ∈ (finalize_tick 0 1 true true).1 ∧
        (finalize_tick 0 1 true true).2 = 1) :=
  ⟨by decide, finalize_once_amended.2.1 0 1 true (by decide)⟩

/-! ## OvercyclePublisher.run_overcycle top-N leaderboards (C5)

Source (`src/OvercyclePublisher.py`, lines 681-708 for the current shift and
53-55 for `_fmt_mmss`): the per-shift accumulator rows are sorted with
Python's stable `sorted(acc, key=..., reverse=True)` on `(sum_over, sum_cnt)`
(times) resp. `(sum_cnt, sum_over)` (totals) and truncated to `_MAX_TOP = 5`;
payload entries are `{ID: i+1, StnID: name(sid), Value: _fmt_mmss(sum_over)}`
resp. integer `sum_cnt`.  The accumulator rows come from the
`getShiftAccumForLine` named query.  Modelled from the spec: that query (not
under `src/`) returns one aggregate row per station of the line, in
`station_id` ascending order, which the stable sort preserves among equal
keys. -/

structure ShiftAccum where
  sid : ℤ
  sum_over : ℚ
  sum_cnt : ℤ
deriving Repr, DecidableEq

def MAX_TOP : ℕ := 5

/-- Lexicographic strict `<` on Python pairs. -/
def lexLt (a b : ℚ × ℚ) : Prop := a.1 < b.1 ∨ (a.1 = b.1 ∧ a.2 < b.2)

/-- Lexicographic `≤` on Python pairs. -/
def lexLe (a b : ℚ × ℚ) : Prop := a.1 < b.1 ∨ (a.1 = b.1 ∧ a.2 ≤ b.2)

instance (a b : ℚ × ℚ) : Decidable (lexLt a b) := by
  unfold lexLt
  infer_instance

instance (a b : ℚ × ℚ) : Decidable (lexLe a b) := by
  unfold lexLe
  infer_instance

/-- Stable descending insertion: a later element goes after all already-placed
elements whose key is ≥ its own (Python's stable sort with `reverse=True`). -/
def insert_desc (key : ShiftAccum → ℚ × ℚ) (x : ShiftAccum) :
    List ShiftAccum → List ShiftAccum
  | [] => [x]
  | y :: ys =>
    if lexLe (key x) (key y) then y :: insert_desc key x ys
    else x :: y :: ys

/-- Python `sorted(l, key=key, reverse=True)` (stable, key-descending). -/
def py_sorted_desc (key : ShiftAccum → ℚ × ℚ) (l : List ShiftAccum) :
    List ShiftAccum :=
  l.foldl (fun a x => insert_desc key x a) []

def key_times (r : ShiftAccum) : ℚ × ℚ := (r.sum_over, (r.sum_cnt : ℚ))

def key_totals (r : ShiftAccum) : ℚ × ℚ := ((r.sum_cnt : ℚ), r.sum_over)

/-- `sorted(acc, key=(sum_over, sum_cnt), reverse=True)[:_MAX_TOP]`. -/
def top_times (acc : List ShiftAccum) : List ShiftAccum :=
  (py_sorted_desc key_times acc).take MAX_TOP

/-- `sorted(acc, key=(sum_cnt, sum_over), reverse=True)[:_MAX_TOP]`. -/
def top_totals (acc : List ShiftAccum) : List ShiftAccum :=
  (py_sorted_desc key_totals acc).take MAX_TOP

/-- `_fmt_mmss(sec)`: `"%d:%02d" % (s // 60, s % 60)` for
`s = int(max(0, round(sec)))`. -/
def fmt_mmss (sec : ℚ) : String :=
  toString ((max 0 (pyRound sec)).toNat / 60) ++ ":" ++
    (if (max 0 (pyRound sec)).toNat % 60 < 10
      then "0" ++ toString ((max 0 (pyRound sec)).toNat % 60)
      else toString ((max 0 (pyRound sec)).toNat % 60))

/-- `TopOvercycleTimes` payload entries `(ID, StnID, Value)`. -/
def overcycles_times_payload (name : ℤ → String) (rows : List ShiftAccum) :
    List (ℕ × String × String) :=
  rows.enum.map fun p => (p.1 + 1, name p.2.sid, fmt_mmss p.2.sum_over)

/-- `TopOvercycleTotals` payload entries `(ID, StnID, Value)`. -/
def overcycles_totals_payload (name : ℤ → String) (rows : List ShiftAccum) :
    List (ℕ × String × ℤ) :=
  rows.enum.map fun p => (p.1 + 1, name p.2.sid, p.2.sum_cnt)

/-- The published order: key strictly descending, ties by station id
ascending. -/
def ord_desc (key : ShiftAccum → ℚ × ℚ) (a b : ShiftAccum) : Prop :=
  lexLt (key b) (key a) ∨ (key a = key b ∧ a.sid < b.sid)

theorem lexLt_of_not_lexLe {a b : ℚ × ℚ} (h : ¬ lexLe a b) : lexLt b a := by
  unfold lexLe at h
  unfold lexLt
  push_neg at h
  obtain ⟨h1, h2⟩ := h
  rcases lt_trichotomy a.1 b.1 with hlt | heq | hgt
  · exact absurd hlt (not_lt.mpr h1)
  · exact Or.inr ⟨heq.symm, h2 heq⟩
  · exact Or.inl hgt

theorem lexLe_lexLt_trans {a b c : ℚ × ℚ} (h1 : lexLe a b) (h2 : lexLt b c) :
    lexLt a c := by
  unfold lexLe at h1
  unfold lexLt at h2 ⊢
  rcases h1 with h1 | ⟨he1, hle⟩ <;> rcases h2 with h2 | ⟨he2, hlt⟩
  · exact Or.inl (lt_trans h1 h2)
  · exact Or.inl (he2 ▸ h1)
  · exact Or.inl (he1 ▸ h2)
  · exact Or.inr ⟨he1.trans he2, lt_of_le_of_lt hle hlt⟩

theorem ord_desc_lexLe {key : ShiftAccum → ℚ × ℚ} {a b : ShiftAccum}
    (h : ord_desc key a b) : lexLe (key b) (key a) := by
  unfold ord_desc at h
  unfold lexLe
  rcases h with h | ⟨heq, _⟩
  · unfold lexLt at h
    rcases h with h | ⟨he, hlt⟩
    · exact Or.inl h
    · exact Or.inr ⟨he, le_of_lt hlt⟩
  · exact Or.inr ⟨congrArg Prod.fst heq.symm, le_of_eq (congrArg Prod.snd heq.symm)⟩

theorem insert_desc_mem (key : ShiftAccum → ℚ × ℚ) (x : ShiftAccum) :
    ∀ (l : List ShiftAccum) (z : ShiftAccum),
      z ∈ insert_desc key x l ↔ z = x ∨ z ∈ l := by
  intro l
  induction l with
  | nil => intro z; simp [insert_desc]
  | cons y ys ih =>
    intro z
    unfold insert_desc
    split
    · simp only [List.mem_cons, ih z]
      tauto
    · simp only [List.mem_cons]

theorem insert_desc_pairwise (key : ShiftAccum → ℚ × ℚ) (x : ShiftAccum) :
    ∀ l : List ShiftAccum, List.Pairwise (ord_desc key) l →
      (∀ y ∈ l, y.sid < x.sid) →
      List.Pairwise (ord_desc key) (insert_desc key x l) := by
  intro l
  induction l with
  | nil => intro _ _; simp [insert_desc]
  | cons y ys ih =>
    intro hp hsid
    rw [List.pairwise_cons] at hp
    obtain ⟨hy, hys⟩ := hp
    unfold insert_desc
    split
    · rename_i hle
      rw [List.pairwise_cons]
      constructor
      · intro z hz
        rcases (insert_desc_mem key x ys z).mp hz with rfl | hzys
        · rcases hle with hlt | ⟨heq, hle2⟩
          · exact Or.inl (Or.inl hlt)
          · rcases lt_or_eq_of_le hle2 with hlt2 | heq2
            · exact Or.inl (Or.inr ⟨heq, hlt2⟩)
            · exact Or.inr ⟨Prod.ext heq.symm heq2.symm,
                hsid y (List.mem_cons_self _ _)⟩
        · exact hy z hzys
      · exact ih hys fun w hw => hsid w (List.mem_cons_of_mem _ hw)
    · rename_i hnle
      have hlt := lexLt_of_not_lexLe hnle
      rw [List.pairwise_cons]
      refine ⟨?_, List.pairwise_cons.mpr ⟨hy, hys⟩⟩
      intro z hz
      rcases List.mem_cons.mp hz with rfl | hzys
      · exact Or.inl hlt
      · exact Or.inl (lexLe_lexLt_trans (ord_desc_lexLe (hy z hzys)) hlt)

theorem foldl_insert_pairwise (key : ShiftAccum → ℚ × ℚ) :
    ∀ (l acc : List ShiftAccum),
      List.Pairwise (ord_desc key) acc →
      (∀ y ∈ acc, ∀ x ∈ l, y.sid < x.sid) →
      List.Pairwise (fun a b : ShiftAccum => a.sid < b.sid) l →
      List.Pairwise (ord_desc key)
        (l.foldl (fun a x => insert_desc key x a) acc) := by
  intro l
  induction l with
  | nil => intro acc hacc _ _; simpa using hacc
  | cons x xs ih =>
    intro acc hacc hcross hl
    rw [List.pairwise_cons] at hl
    obtain ⟨hx, hxs⟩ := hl
    simp only [List.foldl_cons]
    apply ih
    · exact insert_desc_pairwise key x acc hacc
        fun y hy => hcross y hy x (List.mem_cons_self _ _)
    · intro y hy z hz
      rcases (insert_desc_mem key x acc y).mp hy with rfl | hyacc
      · exact hx z hz
      · exact hcross y hyacc z (List.mem_cons_of_mem _ hz)
    · exact hxs

theorem py_sorted_desc_pairwise (key : ShiftAccum → ℚ × ℚ)
    (acc : List ShiftAccum)
    (h : List.Pairwise (fun a b : ShiftAccum => a.sid < b.sid) acc) :
    List.Pairwise (ord_desc key) (py_sorted_desc key acc) := by
  unfold py_sorted_desc
  exact foldl_insert_pairwise key acc [] (List.Pairwise.nil)
    (fun y hy => absurd hy (List.not_mem_nil y)) h

/-- **C5** Assuming the per-station shift accumulator rows arrive in
`station_id`-ascending order, the published `TopOvercycleTimes` leaderboard
lists at most 5 stations ordered by `(sum_over desc, sum_cnt desc)` with ties
broken by `station_id` ascending, and `TopOvercycleTotals` at most 5 stations
ordered by `(sum_cnt desc, sum_over desc)` with the same tie-break; each Times
`Value` is `_fmt_mmss(sum_over)` — an `m:ss` string with a two-digit seconds
part below 60 — and each Totals `Value` is the integer count. -/
theorem top_overcycle_leaderboards :
    (∀ acc : List ShiftAccum,
      List.Pairwise (fun a b : ShiftAccum => a.sid < b.sid) acc →
      (top_times acc).length ≤ 5 ∧
      List.Pairwise (ord_desc key_times) (top_times acc) ∧
      (top_totals acc).length ≤ 5 ∧
      List.Pairwise (ord_desc key_totals) (top_totals acc)) ∧
    (∀ (name : ℤ → String) (rows : List ShiftAccum),
      overcycles_times_payload name rows =
        rows.enum.map (fun p => (p.1 + 1, name p.2.sid, fmt_mmss p.2.sum_over)) ∧
      overcycles_totals_payload name rows =
        rows.enum.map (fun p => (p.1 + 1, name p.2.sid, p.2.sum_cnt))) ∧
    (∀ sec : ℚ, ∃ m s : ℕ, s < 60 ∧
      fmt_mmss sec =
        toString m ++ ":" ++
          (if s < 10 then "0" ++ toString s else toString s)) := by
  refine ⟨?_, ?_, ?_⟩
  · intro acc hacc
    refine ⟨?_, ?_, ?_, ?_⟩
    · unfold top_times MAX_TOP
      exact List.length_take_le 5 _
    · exact (py_sorted_desc_pairwise key_times acc hacc).sublist
        (List.take_sublist _ _)
    · unfold top_totals MAX_TOP
      exact List.length_take_le 5 _
    · exact (py_sorted_desc_pairwise key_totals acc hacc).sublist
        (List.take_sublist _ _)
  · intro name rows
    exact ⟨rfl, rfl⟩
  · intro sec
    refine ⟨(max 0 (pyRound sec)).toNat / 60, (max 0 (pyRound sec)).toNat % 60,
      Nat.mod_lt _ (by norm_num), rfl⟩

/-- Witness for the hypothesis of `top_overcycle_leaderboards` (first conjunct
at a two-station accumulator with equal keys, station ids ascending). -/
theorem top_overcycle_leaderboards_witness :
    List.Pairwise (fun a b : ShiftAccum => a.sid < b.sid)
        [⟨1, 5, 2⟩, ⟨2, 5, 2⟩] ∧
      ((top_times [⟨1, 5, 2⟩, ⟨2, 5, 2⟩]).length ≤ 5 ∧
        List.Pairwise (ord_desc key_times) (top_times [⟨1, 5, 2⟩, ⟨2, 5, 2⟩]) ∧
        (top_totals [⟨1, 5, 2⟩, ⟨2, 5, 2⟩]).length ≤ 5 ∧
        List.Pairwise (ord_desc key_totals) (top_totals [⟨1, 5, 2⟩, ⟨2, 5, 2⟩])) :=
  ⟨by
      rw [List.pairwise_cons]
      exact ⟨fun b hb => by
          rcases List.mem_cons.mp hb with rfl | hb2
          · decide
          · simp at hb2,
        List.pairwise_singleton _ _⟩,
    top_overcycle_leaderboards.1 [⟨1, 5, 2⟩, ⟨2, 5, 2⟩]
      (by
        rw [List.pairwise_cons]
        exact ⟨fun b hb => by
            rcases List.mem_cons.mp hb with rfl | hb2
            · decide
            · simp at hb2,
          List.pairwise_singleton _ _⟩)⟩
